import Mathlib

/-!
Shallow embedding of the mantl-api package repository core
(`repository/repository.go` and the install package's repository code):
layered repositories, package catalog resolution, version selection,
descriptor assembly, schema defaults and the recursive configuration merge.

Go `map[string]interface{}` values are modelled as association lists of
`JVal`; Go `[]byte` document contents are modelled as `String`; the consul
key-value store collaborator is modelled as a function `String → Option
String` (`nil` key-pairs and read errors both yield `none`, matching the
code, which degrades both to "absent"); Go runtime panics and returned
errors are modelled with `Except GoErr`.
-/

namespace MantlApi

/-- A JSON-like dynamic value, modelling Go's `interface{}` as produced by
`encoding/json` unmarshalling: objects become association lists. -/
inductive JVal where
  | obj : List (String × JVal) → JVal
  | str : String → JVal
  | num : Int → JVal
  | boolean : Bool → JVal
  | null : JVal
  | arr : List JVal → JVal

/-- Go map read `m[k]`: the value at key `k` of an association list. -/
def lookupJ : List (String × JVal) → String → Option JVal
  | [], _ => none
  | (k', v) :: rest, k => if k' = k then some v else lookupJ rest k

/-- Go map write `m[k] = v` on an association list: replace the entry if the
key is present (all occurrences, so lookups agree), append otherwise. -/
def setKey (m : List (String × JVal)) (k : String) (v : JVal) : List (String × JVal) :=
  if m.any (fun p => p.1 = k) then
    m.map (fun p => if p.1 = k then (k, v) else p)
  else
    m ++ [(k, v)]

/-- `mergeConfig` from repository.go (lines 586-599): for each key of
`override`, if the key exists in `config` and both sides are objects, recurse;
otherwise the override value replaces the config value. -/
def mergeConfig : List (String × JVal) → List (String × JVal) → List (String × JVal)
  | config, [] => config
  | config, (k, JVal.obj ov) :: rest =>
    match lookupJ config k with
    | some (JVal.obj cv) => mergeConfig (setKey config k (JVal.obj (mergeConfig cv ov))) rest
    | _ => mergeConfig (setKey config k (JVal.obj ov)) rest
  | config, (k, v) :: rest => mergeConfig (setKey config k v) rest
termination_by _ override => sizeOf override

example : mergeConfig [("a", .num 1)] [] = [("a", .num 1)] := by simp [mergeConfig]

example :
    mergeConfig [("a", .obj [("b", .num 1), ("c", .num 2)])] [("a", .obj [("c", .num 9)])] =
      [("a", .obj [("b", .num 1), ("c", .num 9)])] := by
  simp [mergeConfig, lookupJ, setKey, List.any]

/-- `packageConfigGroup` from repository.go (lines 284-292): a node of the
JSON-Schema-like configuration schema. Recursive, so an inductive type. -/
inductive packageConfigGroup where
  | mk : (description : String) → (type : String) → (additionalProperties : Bool) →
      (properties : List (String × packageConfigGroup)) → (required : List String) →
      (minimum : Option JVal) → (default : Option JVal) → packageConfigGroup

def packageConfigGroup.type : packageConfigGroup → String
  | .mk _ t _ _ _ _ _ => t

def packageConfigGroup.properties : packageConfigGroup → List (String × packageConfigGroup)
  | .mk _ _ _ props _ _ _ => props

def packageConfigGroup.default : packageConfigGroup → Option JVal
  | .mk _ _ _ _ _ _ d => d

/-- The zero value of `packageConfigGroup`, as produced by Go for an empty
document. -/
def emptyConfigGroup : packageConfigGroup := .mk "" "" false [] [] none none

mutual

/-- `packageConfigGroup.defaultConfig` from repository.go (lines 294-306):
walks `properties`; a declared (non-null) `default` is emitted verbatim,
else an "object" child contributes its recursively extracted defaults,
else the child contributes nothing. -/
def packageConfigGroup.defaultConfig : packageConfigGroup → List (String × JVal)
  | .mk _ _ _ props _ _ _ => defaultsOfProperties props

/-- The loop body of `defaultConfig`, over the entries of `Properties`. -/
def defaultsOfProperties : List (String × packageConfigGroup) → List (String × JVal)
  | [] => []
  | (groupName, g) :: rest =>
    match g.default with
    | some d => (groupName, d) :: defaultsOfProperties rest
    | none =>
      if g.type = "object" then
        (groupName, JVal.obj g.defaultConfig) :: defaultsOfProperties rest
      else
        defaultsOfProperties rest

end

/-- The consul key-value store collaborator: `get(key)`; read errors and
missing keys both yield `none` (the code degrades errors to absent data). -/
def Kv : Type := String → Option String

/-- Go `path.Join` restricted to the clean, slash-free components this code
joins: empty components are dropped, the rest joined with "/". -/
def pathJoin (parts : List String) : String :=
  String.intercalate "/" (parts.filter (fun s => s ≠ ""))

def RepositoryRoot : String := "mantl-install/repository"

/-- `Repository` from repository.go (lines 15-18). -/
structure Repository where
  name : String
  index : Int
  deriving DecidableEq, Repr

/-- `Repository.PackagesKey` (repository.go lines 50-56). -/
def Repository.packagesKey (r : Repository) : String :=
  pathJoin [RepositoryRoot, toString r.index, "repo/packages"]

/-- `PackageVersion` (lines 155-159). -/
structure PackageVersion where
  version : String
  index : String
  supported : Bool
  deriving DecidableEq, Repr

/-- `Package` (lines 180-188); the Go `map[string]*PackageVersion` becomes an
association list with unique keys. -/
structure Package where
  name : String
  description : String
  framework : Bool
  currentVersion : String
  supported : Bool
  tags : List String
  versions : List (String × PackageVersion)
  deriving DecidableEq, Repr

/-- Errors and runtime panics of the embedded code. -/
inductive GoErr where
  | indexOutOfRange : GoErr
  | nilPointerDeref : GoErr
  | noInstallableVersion : String → GoErr
  | jsonError : String → GoErr
  deriving DecidableEq, Repr

/-- `strings.ToUpper`, modelled as ASCII per-character upper-casing. -/
def strToUpper (s : String) : String := String.mk (s.data.map Char.toUpper)

/-- `strings.ToLower`, modelled as ASCII per-character lower-casing. -/
def strToLower (s : String) : String := String.mk (s.data.map Char.toLower)

def isSpaceChar (c : Char) : Bool := c == ' ' || c == '\t' || c == '\n' || c == '\r'

/-- `strings.TrimSpace`, modelled as trimming ASCII whitespace. -/
def trimSpace (s : String) : String :=
  String.mk (((s.data.dropWhile isSpaceChar).reverse.dropWhile isSpaceChar).reverse)

/-- `Package.ContainerId` (lines 190-192): upper-cased first rune of the
package name; indexing `[]rune(p.Name)[0]` panics when the name is empty. -/
def Package.containerId (p : Package) : Except GoErr String :=
  match p.name.data with
  | [] => Except.error GoErr.indexOutOfRange
  | c :: _ => Except.ok (strToUpper (String.singleton c))

/-- `Package.PackageKey` (lines 194-199). -/
def Package.packageKey (p : Package) : Except GoErr String := do
  let c ← p.containerId
  pure (pathJoin [c, p.name])

/-- `Package.PackageVersionKey` (lines 201-206). -/
def Package.packageVersionKey (p : Package) (index : String) : Except GoErr String := do
  let k ← p.packageKey
  pure (pathJoin [k, index])

/-- `Package.PackageVersions` (lines 208-214): the values of the versions map. -/
def Package.packageVersions (p : Package) : List PackageVersion :=
  p.versions.map (fun e => e.2)

/-- `Package.SupportedVersions` (lines 216-224). -/
def Package.supportedVersions (p : Package) : List PackageVersion :=
  p.packageVersions.filter (fun v => v.supported)

/-- `Package.HasSupportedVersion` (lines 226-228). -/
def Package.hasSupportedVersion (p : Package) : Bool :=
  decide (p.supportedVersions.length > 0)

/-- `strings.EqualFold`, modelled as ASCII simple case folding. -/
def equalFold (a b : String) : Bool := strToLower a == strToLower b

/-- `Package.FindPackageVersion` (lines 230-237): first version whose
version string case-insensitively equals the trimmed request. -/
def Package.findPackageVersion (p : Package) (version : String) : Option PackageVersion :=
  p.packageVersions.find? (fun v => equalFold v.version (trimSpace version))

/-- Go byte-wise lexicographic string comparison `a < b`, computed on the
character lists (executable counterpart of `String.lt`). -/
def charListLt : List Char → List Char → Bool
  | [], [] => false
  | [], _ :: _ => true
  | _ :: _, [] => false
  | a :: as, b :: bs => if a < b then true else if b < a then false else charListLt as bs

/-- Go `a < b` on strings. -/
def strLt (a b : String) : Bool := charListLt a.data b.data

/-- Insertion step of `sort.Sort(packageVersionByMostRecent(...))` (lines
161-165): descending by the `Index` string, stable. -/
def insertMostRecent (v : PackageVersion) : List PackageVersion → List PackageVersion
  | [] => [v]
  | w :: ws => if strLt w.index v.index then v :: w :: ws else w :: insertMostRecent v ws

/-- Sorting by `packageVersionByMostRecent`: descending by `Index`. -/
def sortByMostRecent (l : List PackageVersion) : List PackageVersion :=
  l.foldr insertMostRecent []

/-- `Package.FindLatestPackageVersion` (lines 239-247): head of the versions
sorted most-recent-first, if any. -/
def Package.findLatestPackageVersion (p : Package) : Option PackageVersion :=
  (sortByMostRecent p.packageVersions).head?

/-- Version resolution in `Install.GetPackageDefinition` (lines 431-434):
exact (folded, trimmed) match first, latest otherwise. -/
def resolveVersion (p : Package) (version : String) : Option PackageVersion :=
  match p.findPackageVersion version with
  | some v => some v
  | none => p.findLatestPackageVersion

/-- `packageIndexEntry` (lines 255-262). -/
structure packageIndexEntry where
  currentVersion : String
  description : String
  framework : Bool
  name : String
  tags : List String
  versions : List (String × String)
  deriving DecidableEq, Repr

/-- `packageIndexEntry.ToPackage` (lines 264-282): every version starts out
unsupported; the Go `Package` zero value leaves `Supported` false. -/
def packageIndexEntry.ToPackage (e : packageIndexEntry) : Package :=
  { name := e.name
    description := e.description
    framework := e.framework
    currentVersion := e.currentVersion
    supported := false
    tags := e.tags
    versions := e.versions.map (fun p => (p.1, { version := p.1, index := p.2, supported := false })) }

/-- `Install.setSupportedVersions` (lines 509-535): for every version, every
override layer is probed for `mantl.json` in turn and `Supported` is
(re)assigned from that probe; finally the package's `Supported` becomes
`HasSupportedVersion`. Key construction panics on an empty package name. -/
def setSupportedVersions (kv : Kv) (layers : List Repository) (pkg : Package) :
    Except GoErr Package := do
  let versions ← pkg.versions.mapM (fun e => do
    let v ← layers.foldlM (fun v layer => do
      let pvk ← pkg.packageVersionKey v.index
      let versionKey := pathJoin [layer.packagesKey, pvk, "mantl.json"]
      pure { v with supported := (kv versionKey).isSome }) e.2
    pure (e.1, v))
  let pkg1 := { pkg with versions := versions }
  pure { pkg1 with supported := pkg1.hasSupportedVersion }

/-- `Install.setCurrentVersion` (lines 537-559). -/
def setCurrentVersion (pkg : Package) : Package :=
  if !pkg.supported || !pkg.hasSupportedVersion then pkg
  else
    let keep :=
      match List.lookup pkg.currentVersion pkg.versions with
      | some cv => cv.supported
      | none => false
    if keep then pkg
    else
      match (sortByMostRecent pkg.supportedVersions).find? (fun pv => pv.supported) with
      | some pv => { pkg with currentVersion := pv.version }
      | none => pkg

/-- `Install.getPackages` (lines 390-406), with the parsed base index entries
as input (index fetching/unmarshalling is the store/JSON collaborator). -/
def getPackages (kv : Kv) (layers : List Repository) (entries : List packageIndexEntry) :
    Except GoErr (List Package) :=
  entries.mapM (fun e => do
    let p ← setSupportedVersions kv layers e.ToPackage
    pure (setCurrentVersion p))

/-- `Install.getPackageByName` (lines 408-423): trimmed, case-insensitive
match; `none` (Go `nil, nil`) when absent. -/
def getPackageByName (kv : Kv) (layers : List Repository) (entries : List packageIndexEntry)
    (name : String) : Except GoErr (Option Package) := do
  let packages ← getPackages kv layers entries
  pure (packages.find? (fun p => equalFold (trimSpace name) p.name))

/-- `packageDefinition` (lines 308-319); `[]byte` document fields as strings. -/
structure packageDefinition where
  commandJson : String := ""
  configJson : String := ""
  marathonJson : String := ""
  packageJson : String := ""
  optionsJson : String := ""
  name : String := ""
  version : String := ""
  release : String := ""
  framework : Bool := false
  frameworkName : String := ""
  deriving DecidableEq, Repr

/-- `packageDefinition.IsValid` (lines 321-325): only the config, marathon
and package documents are tested for non-emptiness. -/
def packageDefinition.IsValid (d : packageDefinition) : Bool :=
  decide (d.configJson.length > 0) && decide (d.marathonJson.length > 0) &&
    decide (d.packageJson.length > 0)

/-- `packageDefinition.ConfigSchema` (lines 327-337), with JSON unmarshalling
of a schema document as a collaborator function (`none` = unmarshal error);
an empty document yields the zero-value schema. -/
def packageDefinition.ConfigSchema (d : packageDefinition)
    (parseSchema : String → Option packageConfigGroup) : Except GoErr packageConfigGroup :=
  if d.configJson.length > 0 then
    match parseSchema d.configJson with
    | some c => Except.ok c
    | none => Except.error (GoErr.jsonError "config")
  else
    Except.ok emptyConfigGroup

/-- `packageDefinition.Options` (lines 339-349): an empty options document
yields the nil map. -/
def packageDefinition.Options (d : packageDefinition)
    (parseOptions : String → Option (List (String × JVal))) :
    Except GoErr (List (String × JVal)) :=
  if d.optionsJson.length > 0 then
    match parseOptions d.optionsJson with
    | some o => Except.ok o
    | none => Except.error (GoErr.jsonError "options")
  else
    Except.ok []

/-- `packageDefinition.MergedConfig` (lines 351-369): schema defaults merged
with the options overrides. -/
def packageDefinition.MergedConfig (d : packageDefinition)
    (parseSchema : String → Option packageConfigGroup)
    (parseOptions : String → Option (List (String × JVal))) :
    Except GoErr (List (String × JVal)) := do
  let schema ← d.ConfigSchema parseSchema
  let options ← d.Options parseOptions
  pure (mergeConfig schema.defaultConfig options)

/-- `Install.getPackageDefinitionFile` (lines 495-507): read errors and
missing keys both yield the empty document. -/
def getPackageDefinitionFile (kv : Kv) (name key : String) : String :=
  match kv (pathJoin [key, name]) with
  | some v => v
  | none => ""

/-- Go `if len(data) > 0 { field = data }`: keep the collected document
unless this layer provides a non-empty one. -/
def updateDoc (cur data : String) : String := if data.length > 0 then data else cur

/-- One iteration of the descriptor-assembly loop in
`Install.GetPackageDefinition` (lines 452-478): each of the five documents
read at this layer's key replaces the collected one when non-empty. -/
def assembleStep (kv : Kv) (pkgKey : String) (d : packageDefinition) : packageDefinition :=
  { d with
    commandJson := updateDoc d.commandJson (getPackageDefinitionFile kv "command.json" pkgKey)
    configJson := updateDoc d.configJson (getPackageDefinitionFile kv "config.json" pkgKey)
    marathonJson := updateDoc d.marathonJson (getPackageDefinitionFile kv "marathon.json" pkgKey)
    packageJson := updateDoc d.packageJson (getPackageDefinitionFile kv "package.json" pkgKey)
    optionsJson := updateDoc d.optionsJson (getPackageDefinitionFile kv "mantl.json" pkgKey) }

/-- The descriptor-assembly loop of `Install.GetPackageDefinition` (lines
452-478) over the full ordered repository sequence. -/
def assembleDefinition (kv : Kv) (repos : List Repository) (pkg : Package)
    (pv : PackageVersion) (init : packageDefinition) : Except GoErr packageDefinition :=
  repos.foldlM (fun d repo => do
    let pvk ← pkg.packageVersionKey pv.index
    pure (assembleStep kv (pathJoin [repo.packagesKey, pvk]) d)) init

/-- `Install.GetPackageDefinition` (lines 425-493). A `none` from
`getPackageByName` is followed in Go by a value-receiver method call on the
nil `*Package`, i.e. a nil-pointer dereference panic. -/
def GetPackageDefinition (kv : Kv) (repos layers : List Repository)
    (entries : List packageIndexEntry)
    (parseSchema : String → Option packageConfigGroup)
    (parseOptions : String → Option (List (String × JVal)))
    (name version : String) : Except GoErr packageDefinition := do
  let pkg? ← getPackageByName kv layers entries name
  match pkg? with
  | none => Except.error GoErr.nilPointerDeref
  | some pkg =>
    match resolveVersion pkg version with
    | none => Except.error (GoErr.noInstallableVersion name)
    | some pv => do
      let init : packageDefinition :=
        { name := pkg.name, version := pv.version, release := pv.index,
          framework := pkg.framework }
      let pkgDef ← assembleDefinition kv repos pkg pv init
      let config ← pkgDef.MergedConfig parseSchema parseOptions
      let pkgDef :=
        match lookupJ config "framework-name" with
        | some (JVal.str s) => { pkgDef with frameworkName := s }
        | _ => pkgDef
      pure pkgDef

/-! ### Association-list lemmas -/

theorem lookupJ_eq_none_of_not_mem (m : List (String × JVal)) (k : String)
    (h : m.any (fun p => p.1 = k) = false) : lookupJ m k = none := by
  induction m with
  | nil => rfl
  | cons hd tl ih =>
    simp only [List.any_cons, Bool.or_eq_false_iff, decide_eq_false_iff_not] at h
    simp only [lookupJ, if_neg h.1]
    exact ih (by simpa using h.2)

theorem lookupJ_append_right (m : List (String × JVal)) (k k' : String) (v : JVal)
    (h : m.any (fun p => p.1 = k) = false) :
    lookupJ (m ++ [(k, v)]) k' = if k = k' then some v else lookupJ m k' := by
  induction m with
  | nil =>
    by_cases hkk : k = k'
    · subst hkk
      simp [lookupJ]
    · simp [lookupJ, hkk]
  | cons hd tl ih =>
    simp only [List.any_cons, Bool.or_eq_false_iff, decide_eq_false_iff_not] at h
    have htl := ih h.2
    rw [List.cons_append]
    show (if hd.1 = k' then some hd.2 else lookupJ (tl ++ [(k, v)]) k') = _
    by_cases hk' : hd.1 = k'
    · rw [if_pos hk']
      have hne : ¬(k = k') := fun he => h.1 (by rw [hk', he])
      rw [if_neg hne]
      show _ = (if hd.1 = k' then some hd.2 else lookupJ tl k')
      rw [if_pos hk']
    · rw [if_neg hk', htl]
      by_cases hkk : k = k'
      · rw [if_pos hkk, if_pos hkk]
      · rw [if_neg hkk, if_neg hkk]
        show _ = (if hd.1 = k' then some hd.2 else lookupJ tl k')
        rw [if_neg hk']

theorem lookupJ_map_set_self (m : List (String × JVal)) (k : String) (v : JVal)
    (h : m.any (fun p => p.1 = k) = true) :
    lookupJ (m.map (fun p => if p.1 = k then (k, v) else p)) k = some v := by
  induction m with
  | nil => simp at h
  | cons hd tl ih =>
    simp only [List.any_cons, Bool.or_eq_true, decide_eq_true_eq] at h
    rw [List.map_cons]
    by_cases hk : hd.1 = k
    · rw [if_pos hk]
      show (if k = k then some v else _) = some v
      rw [if_pos rfl]
    · have htl : tl.any (fun p => p.1 = k) = true := by
        rcases h with h | h
        · exact absurd h hk
        · exact h
      rw [if_neg hk]
      show (if hd.1 = k then some hd.2 else _) = some v
      rw [if_neg hk, ih htl]

theorem lookupJ_map_set_ne (m : List (String × JVal)) (k k' : String) (v : JVal)
    (h : k ≠ k') :
    lookupJ (m.map (fun p => if p.1 = k then (k, v) else p)) k' = lookupJ m k' := by
  induction m with
  | nil => rfl
  | cons hd tl ih =>
    rw [List.map_cons]
    by_cases hk : hd.1 = k
    · rw [if_pos hk]
      have hne : ¬(hd.1 = k') := by rw [hk]; exact h
      show (if k = k' then some v else _) = _
      rw [if_neg h]
      show _ = (if hd.1 = k' then some hd.2 else lookupJ tl k')
      rw [if_neg hne, ih]
    · rw [if_neg hk]
      show (if hd.1 = k' then some hd.2 else _) =
        (if hd.1 = k' then some hd.2 else lookupJ tl k')
      by_cases hk' : hd.1 = k'
      · rw [if_pos hk', if_pos hk']
      · rw [if_neg hk', if_neg hk', ih]

theorem lookupJ_setKey_self (m : List (String × JVal)) (k : String) (v : JVal) :
    lookupJ (setKey m k v) k = some v := by
  unfold setKey
  split
  · next hany => exact lookupJ_map_set_self m k v hany
  · next hany =>
    rw [lookupJ_append_right m k k v (Bool.eq_false_iff.mpr hany), if_pos rfl]

theorem lookupJ_setKey_ne (m : List (String × JVal)) (k k' : String) (v : JVal)
    (h : k ≠ k') : lookupJ (setKey m k v) k' = lookupJ m k' := by
  unfold setKey
  split
  · exact lookupJ_map_set_ne m k k' v h
  · next hany =>
    rw [lookupJ_append_right m k k' v (Bool.eq_false_iff.mpr hany), if_neg h]

theorem lookupJ_not_mem_keys (m : List (String × JVal)) (k : String)
    (h : k ∉ m.map Prod.fst) : lookupJ m k = none := by
  refine lookupJ_eq_none_of_not_mem m k ?_
  rw [Bool.eq_false_iff]
  intro hc
  simp only [List.any_eq_true, decide_eq_true_eq] at hc
  obtain ⟨p, hp, hpk⟩ := hc
  exact h (by simpa [hpk] using List.mem_map_of_mem Prod.fst hp)

/-- C2: `mergeConfig` is a per-key, recursive, right-biased merge: an
override key whose value and whose base value are both objects merges
recursively; every other override key takes exactly the override value; base
keys absent from the override are untouched. -/
theorem mergeConfig_lookup (base override : List (String × JVal))
    (ho : (override.map Prod.fst).Nodup) (k : String) :
    lookupJ (mergeConfig base override) k =
      match lookupJ override k with
      | none => lookupJ base k
      | some v =>
        match lookupJ base k, v with
        | some (JVal.obj bv), JVal.obj ov => some (JVal.obj (mergeConfig bv ov))
        | _, _ => some v := by
  induction override generalizing base with
  | nil => simp [mergeConfig, lookupJ]
  | cons hd tl ih =>
    obtain ⟨k0, v0⟩ := hd
    simp only [List.map_cons, List.nodup_cons] at ho
    obtain ⟨hk0, htl⟩ := ho
    have hrest : lookupJ tl k0 = none := lookupJ_not_mem_keys tl k0 hk0
    by_cases hk : k0 = k
    · subst hk
      have htlk : lookupJ tl k0 = none := hrest
      cases v0 with
      | obj ov =>
        simp only [mergeConfig]
        rcases hb : lookupJ base k0 with _ | bv
        · rw [ih _ htl, htlk, lookupJ_setKey_self]
          simp [lookupJ, hb]
        · cases bv with
          | obj bv' =>
            rw [ih _ htl, htlk, lookupJ_setKey_self]
            simp [lookupJ, hb]
          | str s =>
            rw [ih _ htl, htlk, lookupJ_setKey_self]
            simp [lookupJ, hb]
          | num n =>
            rw [ih _ htl, htlk, lookupJ_setKey_self]
            simp [lookupJ, hb]
          | boolean b =>
            rw [ih _ htl, htlk, lookupJ_setKey_self]
            simp [lookupJ, hb]
          | null =>
            rw [ih _ htl, htlk, lookupJ_setKey_self]
            simp [lookupJ, hb]
          | arr a =>
            rw [ih _ htl, htlk, lookupJ_setKey_self]
            simp [lookupJ, hb]
      | str s =>
        simp only [mergeConfig]
        rw [ih _ htl, htlk, lookupJ_setKey_self]
        simp [lookupJ]
      | num n =>
        simp only [mergeConfig]
        rw [ih _ htl, htlk, lookupJ_setKey_self]
        simp [lookupJ]
      | boolean b =>
        simp only [mergeConfig]
        rw [ih _ htl, htlk, lookupJ_setKey_self]
        simp [lookupJ]
      | null =>
        simp only [mergeConfig]
        rw [ih _ htl, htlk, lookupJ_setKey_self]
        simp [lookupJ]
      | arr a =>
        simp only [mergeConfig]
        rw [ih _ htl, htlk, lookupJ_setKey_self]
        simp [lookupJ]
    · have hhd : lookupJ ((k0, v0) :: tl) k = lookupJ tl k := by
        simp [lookupJ, hk]
      cases v0 with
      | obj ov =>
        simp only [mergeConfig]
        rcases hb : lookupJ base k0 with _ | bv
        · rw [ih _ htl, hhd]
          rcases htlk : lookupJ tl k with _ | w
          · rw [lookupJ_setKey_ne _ _ _ _ hk]
          · rw [lookupJ_setKey_ne _ _ _ _ hk]
        · cases bv <;>
            (rw [ih _ htl, hhd]
             rcases htlk : lookupJ tl k with _ | w
             · rw [lookupJ_setKey_ne _ _ _ _ hk]
             · rw [lookupJ_setKey_ne _ _ _ _ hk])
      | str s =>
        simp only [mergeConfig]
        rw [ih _ htl, hhd]
        rcases htlk : lookupJ tl k with _ | w
        · rw [lookupJ_setKey_ne _ _ _ _ hk]
        · rw [lookupJ_setKey_ne _ _ _ _ hk]
      | num n =>
        simp only [mergeConfig]
        rw [ih _ htl, hhd]
        rcases htlk : lookupJ tl k with _ | w
        · rw [lookupJ_setKey_ne _ _ _ _ hk]
        · rw [lookupJ_setKey_ne _ _ _ _ hk]
      | boolean b =>
        simp only [mergeConfig]
        rw [ih _ htl, hhd]
        rcases htlk : lookupJ tl k with _ | w
        · rw [lookupJ_setKey_ne _ _ _ _ hk]
        · rw [lookupJ_setKey_ne _ _ _ _ hk]
      | null =>
        simp only [mergeConfig]
        rw [ih _ htl, hhd]
        rcases htlk : lookupJ tl k with _ | w
        · rw [lookupJ_setKey_ne _ _ _ _ hk]
        · rw [lookupJ_setKey_ne _ _ _ _ hk]
      | arr a =>
        simp only [mergeConfig]
        rw [ih _ htl, hhd]
        rcases htlk : lookupJ tl k with _ | w
        · rw [lookupJ_setKey_ne _ _ _ _ hk]
        · rw [lookupJ_setKey_ne _ _ _ _ hk]

/-! ### Sorting lemmas for `packageVersionByMostRecent` -/

theorem charListLt_iff : ∀ as bs : List Char, charListLt as bs = true ↔ List.lt as bs := by
  intro as
  induction as with
  | nil =>
    intro bs
    cases bs with
    | nil =>
      simp only [charListLt]
      constructor
      · intro h
        simp at h
      · intro h
        cases h
    | cons b bs =>
      simp only [charListLt]
      exact ⟨fun _ => List.lt.nil b bs, fun _ => trivial⟩
  | cons a as ih =>
    intro bs
    cases bs with
    | nil =>
      simp only [charListLt]
      constructor
      · intro h
        simp at h
      · intro h
        cases h
    | cons b bs =>
      simp only [charListLt]
      by_cases hab : a < b
      · rw [if_pos hab]
        exact ⟨fun _ => List.lt.head as bs hab, fun _ => rfl⟩
      · rw [if_neg hab]
        by_cases hba : b < a
        · rw [if_pos hba]
          constructor
          · intro h
            simp at h
          · intro h
            cases h with
            | head as bs h' => exact absurd h' hab
            | tail h1 h2 h3 => exact absurd hba h2
        · rw [if_neg hba]
          constructor
          · intro h
            exact List.lt.tail hab hba ((ih bs).mp h)
          · intro h
            cases h with
            | head as bs h' => exact absurd h' hab
            | tail h1 h2 h3 => exact (ih bs).mpr h3

theorem strLt_iff (a b : String) : strLt a b = true ↔ a < b := by
  have hlex : (a.toList < b.toList) ↔ List.Lex (· < ·) a.toList b.toList := Iff.rfl
  rw [String.lt_iff_toList_lt, hlex, ← List.lt_iff_lex_lt]
  exact charListLt_iff a.data b.data

theorem mem_insertMostRecent {v w : PackageVersion} {l : List PackageVersion} :
    w ∈ insertMostRecent v l ↔ w = v ∨ w ∈ l := by
  induction l with
  | nil => simp [insertMostRecent]
  | cons x xs ih =>
    simp only [insertMostRecent]
    split
    · simp
    · simp only [List.mem_cons, ih]
      tauto

theorem mem_sortByMostRecent {v : PackageVersion} {l : List PackageVersion} :
    v ∈ sortByMostRecent l ↔ v ∈ l := by
  induction l with
  | nil => simp [sortByMostRecent]
  | cons x xs ih =>
    show v ∈ insertMostRecent x (sortByMostRecent xs) ↔ _
    rw [mem_insertMostRecent, ih]
    simp

theorem insertMostRecent_sorted {v : PackageVersion} {l : List PackageVersion}
    (h : l.Pairwise (fun a b => b.index ≤ a.index)) :
    (insertMostRecent v l).Pairwise (fun a b => b.index ≤ a.index) := by
  induction l with
  | nil => simp [insertMostRecent]
  | cons x xs ih =>
    rw [List.pairwise_cons] at h
    simp only [insertMostRecent]
    split
    · next hlt =>
      refine List.Pairwise.cons ?_ (List.Pairwise.cons h.1 h.2)
      intro w hw
      rcases List.mem_cons.mp hw with hw | hw
      · exact hw ▸ le_of_lt ((strLt_iff _ _).mp hlt)
      · exact le_trans (h.1 w hw) (le_of_lt ((strLt_iff _ _).mp hlt))
    · next hge =>
      refine List.Pairwise.cons ?_ (ih h.2)
      intro w hw
      rcases mem_insertMostRecent.mp hw with hw | hw
      · exact hw ▸ le_of_not_lt (fun hc => hge ((strLt_iff _ _).mpr hc))
      · exact h.1 w hw

theorem sortByMostRecent_sorted (l : List PackageVersion) :
    (sortByMostRecent l).Pairwise (fun a b => b.index ≤ a.index) := by
  induction l with
  | nil => simp [sortByMostRecent]
  | cons x xs ih => exact insertMostRecent_sorted ih

theorem sortByMostRecent_head_max (l : List PackageVersion) (h : l ≠ []) :
    ∃ v, (sortByMostRecent l).head? = some v ∧ v ∈ l ∧ ∀ w ∈ l, w.index ≤ v.index := by
  obtain ⟨x, hx⟩ := List.exists_mem_of_ne_nil l h
  have hxs : x ∈ sortByMostRecent l := mem_sortByMostRecent.mpr hx
  rcases hs : sortByMostRecent l with _ | ⟨v, rest⟩
  · rw [hs] at hxs
    simp at hxs
  · refine ⟨v, rfl, mem_sortByMostRecent.mp (hs ▸ List.mem_cons_self v rest), ?_⟩
    intro w hw
    have hw' : w ∈ sortByMostRecent l := mem_sortByMostRecent.mpr hw
    rw [hs] at hw'
    rcases List.mem_cons.mp hw' with hw' | hw'
    · exact hw' ▸ le_refl _
    · have hp := sortByMostRecent_sorted l
      rw [hs, List.pairwise_cons] at hp
      exact hp.1 w hw'

theorem find?_eq_head?_of_all {p : PackageVersion → Bool} {l : List PackageVersion}
    (h : ∀ x ∈ l, p x = true) : l.find? p = l.head? := by
  cases l with
  | nil => rfl
  | cons x xs => rw [List.find?_cons_of_pos _ (h x (List.mem_cons_self x xs)), List.head?_cons]

/-! ### `setCurrentVersion` lemmas -/

theorem setCurrentVersion_of_unsupported {pkg : Package} (h : pkg.supported = false) :
    setCurrentVersion pkg = pkg := by
  simp [setCurrentVersion, h]

theorem setCurrentVersion_keep {pkg : Package} {cv : PackageVersion}
    (h1 : List.lookup pkg.currentVersion pkg.versions = some cv) (h2 : cv.supported = true) :
    setCurrentVersion pkg = pkg := by
  unfold setCurrentVersion
  split
  · rfl
  · rw [h1]
    simp [h2]

theorem setCurrentVersion_replace {pkg : Package}
    (h1 : pkg.supported = true) (h2 : pkg.hasSupportedVersion = true)
    (h3 : ∀ cv, List.lookup pkg.currentVersion pkg.versions = some cv → cv.supported = false) :
    ∃ v, v ∈ pkg.supportedVersions ∧
      setCurrentVersion pkg = { pkg with currentVersion := v.version } ∧
      ∀ w ∈ pkg.supportedVersions, w.index ≤ v.index := by
  have hne : pkg.supportedVersions ≠ [] := by
    intro hnil
    rw [Package.hasSupportedVersion, hnil] at h2
    simp at h2
  obtain ⟨v, hv, hvmem, hvmax⟩ := sortByMostRecent_head_max pkg.supportedVersions hne
  have hall : ∀ x ∈ sortByMostRecent pkg.supportedVersions, x.supported = true := by
    intro x hx
    have := mem_sortByMostRecent.mp hx
    exact (List.mem_filter.mp this).2
  refine ⟨v, hvmem, ?_, hvmax⟩
  unfold setCurrentVersion
  rw [if_neg (by simp [h1, h2])]
  have hkeep :
      (match List.lookup pkg.currentVersion pkg.versions with
        | some cv => cv.supported
        | none => false) = false := by
    rcases hl : List.lookup pkg.currentVersion pkg.versions with _ | cv
    · rfl
    · exact h3 cv hl
  rw [hkeep]
  simp only [Bool.false_eq_true, if_false]
  rw [find?_eq_head?_of_all hall, hv]

theorem setCurrentVersion_supported (pkg : Package) :
    (setCurrentVersion pkg).supported = pkg.supported := by
  unfold setCurrentVersion
  split
  · rfl
  · split
    all_goals
      dsimp only
      split
      · rfl
      · split <;> rfl

theorem setCurrentVersion_versions (pkg : Package) :
    (setCurrentVersion pkg).versions = pkg.versions := by
  unfold setCurrentVersion
  split
  · rfl
  · split
    all_goals
      dsimp only
      split
      · rfl
      · split <;> rfl

/-! ### Characterization of `setSupportedVersions` -/

theorem exceptBind_ok {ε α β : Type} (a : α) (f : α → Except ε β) :
    (Except.ok a >>= f : Except ε β) = f a := rfl

theorem foldlM_ok_of_ok {ε α β : Type} (f : β → α → Except ε β) (g : β → α → β)
    (hf : ∀ b a, f b a = Except.ok (g b a)) :
    ∀ (l : List α) (b : β), l.foldlM f b = Except.ok (l.foldl g b) := by
  intro l
  induction l with
  | nil => intro b; rfl
  | cons a l ih =>
    intro b
    rw [List.foldlM_cons, hf, exceptBind_ok, ih, List.foldl_cons]

theorem mapM_ok_of_ok {ε α β : Type} (f : α → Except ε β) (g : α → β)
    (hf : ∀ a, f a = Except.ok (g a)) :
    ∀ l : List α, l.mapM f = Except.ok (l.map g) := by
  intro l
  induction l with
  | nil => rfl
  | cons a l ih =>
    rw [List.mapM_cons, hf, exceptBind_ok, ih]
    rfl

/-- The per-version storage key `C/name/index` that `PackageVersionKey`
computes for a package whose name is non-empty. -/
def versionKeyOf (pkg : Package) (idx : String) : String :=
  match pkg.name.data with
  | [] => ""
  | c :: _ => pathJoin [pathJoin [strToUpper (String.singleton c), pkg.name], idx]

theorem data_ne_nil_of_ne_empty {s : String} (h : s ≠ "") : s.data ≠ [] := by
  intro hd
  apply h
  cases s with
  | mk l =>
    simp only at hd
    rw [hd]

theorem containerId_ok {pkg : Package} {c : Char} {rest : List Char}
    (hn : pkg.name.data = c :: rest) :
    pkg.containerId = Except.ok (strToUpper (String.singleton c)) := by
  unfold Package.containerId
  rw [hn]

theorem packageVersionKey_ok {pkg : Package} (h : pkg.name ≠ "") (idx : String) :
    pkg.packageVersionKey idx = Except.ok (versionKeyOf pkg idx) := by
  rcases hn : pkg.name.data with _ | ⟨c, rest⟩
  · exact absurd hn (data_ne_nil_of_ne_empty h)
  · unfold Package.packageVersionKey Package.packageKey versionKeyOf
    rw [containerId_ok hn, hn]
    rfl

/-- The probe of one override layer for one version's options document. -/
def probeAt (kv : Kv) (pkg : Package) (layer : Repository) (idx : String) : Bool :=
  (kv (pathJoin [layer.packagesKey, versionKeyOf pkg idx, "mantl.json"])).isSome

/-- The net effect of the probing loop on one version: the last-probed
layer's result wins; with no override layers the flag is unchanged. -/
def probedVersion (kv : Kv) (layers : List Repository) (pkg : Package)
    (v : PackageVersion) : PackageVersion :=
  { v with supported := layers.getLast?.elim v.supported (fun layer => probeAt kv pkg layer v.index) }

/-- The net effect of `setSupportedVersions` on a package with a non-empty
name: every version's flag becomes its last layer probe, and the package
flag becomes `HasSupportedVersion`. -/
def probedPackageSpec (kv : Kv) (layers : List Repository) (pkg : Package) : Package :=
  let newVersions :=
    pkg.versions.map (fun (e : String × PackageVersion) => (e.1, probedVersion kv layers pkg e.2))
  let pkg1 := { pkg with versions := newVersions }
  { pkg1 with supported := pkg1.hasSupportedVersion }

theorem foldl_probe (kv : Kv) (pkg : Package) :
    ∀ (layers : List Repository) (v : PackageVersion),
      layers.foldl (fun v layer => { v with supported := probeAt kv pkg layer v.index }) v =
        probedVersion kv layers pkg v := by
  intro layers
  induction layers with
  | nil => intro v; rfl
  | cons a l ih =>
    intro v
    rw [List.foldl_cons, ih]
    cases l with
    | nil => rfl
    | cons b l' =>
      obtain ⟨L, hL⟩ : ∃ L, (b :: l').getLast? = some L :=
        Option.isSome_iff_exists.mp (List.getLast?_isSome.mpr (by simp))
      unfold probedVersion
      rw [List.getLast?_cons_cons, hL]
      rfl

theorem setSupportedVersions_eq (kv : Kv) (layers : List Repository) (pkg : Package)
    (h : pkg.name ≠ "") :
    setSupportedVersions kv layers pkg = Except.ok (probedPackageSpec kv layers pkg) := by
  have hstep : ∀ (v : PackageVersion) (layer : Repository),
      (do
        let pvk ← pkg.packageVersionKey v.index
        pure { v with supported := (kv (pathJoin [layer.packagesKey, pvk, "mantl.json"])).isSome }
        : Except GoErr PackageVersion)
      = Except.ok { v with supported := probeAt kv pkg layer v.index } := by
    intro v layer
    rw [packageVersionKey_ok h]
    rfl
  have hver : ∀ e : String × PackageVersion,
      (show Except GoErr (String × PackageVersion) from do
        let v ← layers.foldlM (fun v layer => do
          let pvk ← pkg.packageVersionKey v.index
          pure { v with supported := (kv (pathJoin [layer.packagesKey, pvk, "mantl.json"])).isSome }) e.2
        pure (e.1, v))
      = Except.ok (e.1, probedVersion kv layers pkg e.2) := by
    intro e
    rw [foldlM_ok_of_ok _ _ hstep layers e.2, exceptBind_ok, foldl_probe]
    rfl
  unfold setSupportedVersions
  rw [mapM_ok_of_ok _ _ hver, exceptBind_ok]
  rfl

/-! ### Descriptor-assembly lemmas -/

/-- The five descriptor document names assembled per layer. -/
def docNames : List String :=
  ["command.json", "config.json", "marathon.json", "package.json", "mantl.json"]

/-- The document field of a bundle addressed by its storage file name. -/
def docOf (d : packageDefinition) : String → String
  | "command.json" => d.commandJson
  | "config.json" => d.configJson
  | "marathon.json" => d.marathonJson
  | "package.json" => d.packageJson
  | "mantl.json" => d.optionsJson
  | _ => ""

/-- What one layer stores for one document of one package version. -/
def fetchDoc (kv : Kv) (pkg : Package) (pv : PackageVersion) (r : Repository)
    (doc : String) : String :=
  getPackageDefinitionFile kv doc (pathJoin [r.packagesKey, versionKeyOf pkg pv.index])

theorem strLength_pos_of_ne {s : String} (h : s ≠ "") : s.length > 0 := by
  have hd := data_ne_nil_of_ne_empty h
  cases s with
  | mk l =>
    simp only at hd
    simpa [String.length] using List.length_pos.mpr hd

theorem assembleDefinition_ok (kv : Kv) (repos : List Repository) (pkg : Package)
    (pv : PackageVersion) (init : packageDefinition) (h : pkg.name ≠ "") :
    assembleDefinition kv repos pkg pv init =
      Except.ok (repos.foldl
        (fun d repo => assembleStep kv (pathJoin [repo.packagesKey, versionKeyOf pkg pv.index]) d)
        init) := by
  unfold assembleDefinition
  exact foldlM_ok_of_ok _ _ (fun d repo => by rw [packageVersionKey_ok h]; rfl) repos init

theorem docOf_assembleStep (kv : Kv) (key : String) (d : packageDefinition) :
    ∀ doc ∈ docNames,
      docOf (assembleStep kv key d) doc =
        updateDoc (docOf d doc) (getPackageDefinitionFile kv doc key) := by
  intro doc hdoc
  fin_cases hdoc <;> rfl

theorem docOf_foldl (kv : Kv) (key : Repository → String) (doc : String)
    (hdoc : doc ∈ docNames) :
    ∀ (repos : List Repository) (init : packageDefinition),
      docOf (repos.foldl (fun d repo => assembleStep kv (key repo) d) init) doc =
        repos.foldl (fun a repo => updateDoc a (getPackageDefinitionFile kv doc (key repo)))
          (docOf init doc) := by
  intro repos
  induction repos with
  | nil => intro init; rfl
  | cons r rs ih =>
    intro init
    rw [List.foldl_cons, List.foldl_cons, ih, docOf_assembleStep kv (key r) init doc hdoc]

theorem foldl_updateDoc_empty {f : Repository → String} :
    ∀ (repos : List Repository) (a : String), (∀ r ∈ repos, f r = "") →
      repos.foldl (fun a r => updateDoc a (f r)) a = a := by
  intro repos
  induction repos with
  | nil => intro a _; rfl
  | cons r rs ih =>
    intro a h
    rw [List.foldl_cons]
    have hr : f r = "" := h r (List.mem_cons_self r rs)
    rw [hr]
    show rs.foldl _ (updateDoc a "") = a
    rw [show updateDoc a "" = a from rfl]
    exact ih a (fun x hx => h x (List.mem_cons_of_mem r hx))

theorem foldl_updateDoc_last {f : Repository → String} :
    ∀ (l1 : List Repository) (r : Repository) (l2 : List Repository) (a : String),
      f r ≠ "" → (∀ x ∈ l2, f x = "") →
      ((l1 ++ r :: l2).foldl (fun a x => updateDoc a (f x)) a) = f r := by
  intro l1
  induction l1 with
  | nil =>
    intro r l2 a hr h2
    rw [List.nil_append, List.foldl_cons]
    have : updateDoc a (f r) = f r := by
      unfold updateDoc
      rw [if_pos (strLength_pos_of_ne hr)]
    rw [this]
    exact foldl_updateDoc_empty l2 (f r) h2
  | cons x xs ih =>
    intro r l2 a hr h2
    rw [List.cons_append, List.foldl_cons]
    exact ih r l2 _ hr h2

/-! ### Default-extraction lemmas -/

theorem defaultsOfProperties_not_mem (props : List (String × packageConfigGroup)) (k : String)
    (h : k ∉ props.map Prod.fst) : lookupJ (defaultsOfProperties props) k = none := by
  induction props with
  | nil => rfl
  | cons hd tl ih =>
    obtain ⟨name, g⟩ := hd
    simp only [List.map_cons, List.mem_cons, not_or] at h
    have hne : ¬(name = k) := fun he => h.1 he.symm
    have htl := ih h.2
    rcases hdef : g.default with _ | d
    · by_cases hobj : g.type = "object"
      · simp only [defaultsOfProperties, hdef, if_pos hobj, lookupJ, if_neg hne]
        exact htl
      · simp only [defaultsOfProperties, hdef, if_neg hobj]
        exact htl
    · simp only [defaultsOfProperties, hdef, lookupJ, if_neg hne]
      exact htl

theorem defaultsOfProperties_lookup (props : List (String × packageConfigGroup))
    (hnd : (props.map Prod.fst).Nodup) (k : String) :
    lookupJ (defaultsOfProperties props) k =
      match List.lookup k props with
      | none => none
      | some child =>
        match child.default with
        | some d => some d
        | none =>
          if child.type = "object" then some (JVal.obj child.defaultConfig) else none := by
  induction props with
  | nil => rfl
  | cons hd tl ih =>
    obtain ⟨name, g⟩ := hd
    simp only [List.map_cons, List.nodup_cons] at hnd
    obtain ⟨hname, htl⟩ := hnd
    by_cases hk : k = name
    · subst hk
      have hlook : List.lookup k ((k, g) :: tl) = some g := by simp [List.lookup]
      rw [hlook]
      rcases hdef : g.default with _ | d
      · by_cases hobj : g.type = "object"
        · simp only [defaultsOfProperties, hdef, if_pos hobj, lookupJ, if_pos rfl]
          simp [hdef, hobj]
        · simp only [defaultsOfProperties, hdef, if_neg hobj]
          rw [defaultsOfProperties_not_mem tl k hname]
      · simp only [defaultsOfProperties, hdef, lookupJ, if_pos rfl]
        simp [hdef]
    · have hbeq : (k == name) = false := beq_eq_false_iff_ne.mpr hk
      have hlk : List.lookup k ((name, g) :: tl) = List.lookup k tl := by
        simp [List.lookup, hbeq]
      rw [hlk]
      have hne : ¬(name = k) := fun he => hk he.symm
      rcases hdef : g.default with _ | d
      · by_cases hobj : g.type = "object"
        · simp only [defaultsOfProperties, hdef, if_pos hobj, lookupJ, if_neg hne]
          exact ih htl
        · simp only [defaultsOfProperties, hdef, if_neg hobj]
          exact ih htl
      · simp only [defaultsOfProperties, hdef, lookupJ, if_neg hne]
        exact ih htl

/-! ### Package-level helper lemmas -/

theorem hasSupportedVersion_iff (p : Package) :
    p.hasSupportedVersion = true ↔ ∃ e ∈ p.versions, e.2.supported = true := by
  unfold Package.hasSupportedVersion Package.supportedVersions Package.packageVersions
  rw [decide_eq_true_iff, gt_iff_lt, List.length_pos]
  constructor
  · intro h
    obtain ⟨v, hv⟩ := List.exists_mem_of_ne_nil _ h
    have := List.mem_filter.mp hv
    obtain ⟨e, he, hev⟩ := List.mem_map.mp this.1
    exact ⟨e, he, by rw [hev]; exact this.2⟩
  · intro ⟨e, he, hes⟩
    intro hnil
    have : e.2 ∈ List.filter (fun v => v.supported) (List.map (fun e => e.2) p.versions) :=
      List.mem_filter.mpr ⟨List.mem_map_of_mem _ he, hes⟩
    rw [hnil] at this
    simp at this

theorem lookup_of_mem_nodup {β : Type} (l : List (String × β))
    (hnd : (l.map Prod.fst).Nodup) {k : String} {v : β} (hm : (k, v) ∈ l) :
    List.lookup k l = some v := by
  induction l with
  | nil => simp at hm
  | cons hd tl ih =>
    obtain ⟨k0, v0⟩ := hd
    simp only [List.map_cons, List.nodup_cons] at hnd
    rcases List.mem_cons.mp hm with heq | hmem
    · cases heq
      simp [List.lookup]
    · have hk : k ≠ k0 := by
        intro he
        subst he
        exact hnd.1 (List.mem_map_of_mem Prod.fst hmem)
      have hbeq : (k == k0) = false := by
        rw [beq_eq_false_iff_ne]
        exact hk
      simp only [List.lookup, hbeq]
      exact ih hnd.2 hmem

theorem strLength_pos_iff {s : String} : s.length > 0 ↔ s ≠ "" :=
  ⟨fun h he => by subst he; simp at h, strLength_pos_of_ne⟩

/-! ### Concrete fixtures -/

def layerOne : Repository := { name := "community", index := 1 }

def layerTwo : Repository := { name := "site", index := 2 }

def fooPkg : Package :=
  { name := "foo", description := "", framework := false, currentVersion := "1.0",
    supported := false, tags := [],
    versions := [("1.0", { version := "1.0", index := "3", supported := false })] }

/-- A store holding the options document for foo/3 at layer 1 only. -/
def fooKv : Kv := fun k =>
  if k = "mantl-install/repository/1/repo/packages/F/foo/3/mantl.json" then some "{}" else none

def examplePkg : Package :=
  { name := "kafka", description := "", framework := false, currentVersion := "0.9",
    supported := true, tags := [],
    versions := [("0.9", { version := "0.9", index := "1", supported := false }),
                 ("1.0", { version := "1.0", index := "5", supported := true }),
                 ("1.2", { version := "1.2", index := "9", supported := true })] }

def unsupportedPkg : Package :=
  { name := "zk", description := "", framework := false, currentVersion := "2.0",
    supported := false, tags := [], versions := [] }

def emptyNamePkg : Package :=
  { name := "", description := "", framework := false, currentVersion := "",
    supported := false, tags := [], versions := [] }

/-- A package with an empty version key next to a higher-release one. -/
def emptyKeyPkg : Package :=
  { name := "bar", description := "", framework := false, currentVersion := "1.0",
    supported := false, tags := [],
    versions := [("", { version := "", index := "1", supported := false }),
                 ("1.0", { version := "1.0", index := "9", supported := false })] }

def validBundle : packageDefinition :=
  { configJson := "schema", marathonJson := "template", packageJson := "metadata" }

/-! ### The claims -/

/-- C1, corrected: probing a package with a non-empty name succeeds and
equals `probedPackageSpec`: a version's `supported` flag is the probe result
of the **last** override layer alone (so presence in an earlier layer does
not set it, and layer order matters); with no override layers the flag is
unchanged; the package flag becomes `HasSupportedVersion`. -/
theorem c1_supported_last_layer_probe (kv : Kv) (layers : List Repository) (pkg : Package)
    (h : pkg.name ≠ "") :
    setSupportedVersions kv layers pkg = Except.ok (probedPackageSpec kv layers pkg) ∧
    (∀ L, layers.getLast? = some L →
      (probedPackageSpec kv layers pkg).versions =
        pkg.versions.map (fun e => (e.1, { e.2 with supported := probeAt kv pkg L e.2.index }))) ∧
    (layers = [] → (probedPackageSpec kv layers pkg).versions = pkg.versions) := by
  refine ⟨setSupportedVersions_eq kv layers pkg h, ?_, ?_⟩
  · intro L hL
    show pkg.versions.map (fun e => (e.1, probedVersion kv layers pkg e.2)) = _
    refine List.map_congr_left ?_
    intro e _
    simp [probedVersion, hL]
  · intro hl
    subst hl
    show pkg.versions.map (fun e => (e.1, probedVersion kv [] pkg e.2)) = _
    exact List.map_id pkg.versions

/-- C1 witness: the theorem applied at the two-layer fixture. -/
theorem c1_supported_last_layer_probe_witness :
    fooPkg.name ≠ "" ∧
    setSupportedVersions fooKv [layerOne, layerTwo] fooPkg =
      Except.ok (probedPackageSpec fooKv [layerOne, layerTwo] fooPkg) :=
  ⟨by decide, (c1_supported_last_layer_probe fooKv [layerOne, layerTwo] fooPkg (by decide)).1⟩

/-- C1 counterexample to the claim as stated: the options document for
foo/3 is present in override layer 1 but not in layer 2; probing the layers
in ascending order leaves the version (and the package) unsupported, while
probing them in the opposite order marks it supported — so support is not
"presence in at least one layer" and layer order does change the boolean. -/
theorem c1_any_layer_counterexample :
    (fooKv (pathJoin [layerOne.packagesKey, versionKeyOf fooPkg "3", "mantl.json"])).isSome
      = true ∧
    setSupportedVersions fooKv [layerOne, layerTwo] fooPkg = Except.ok fooPkg ∧
    fooPkg.supported = false ∧
    List.lookup "1.0" fooPkg.versions = some { version := "1.0", index := "3", supported := false } ∧
    (∃ q, setSupportedVersions fooKv [layerTwo, layerOne] fooPkg = Except.ok q ∧
      q.supported = true) := by
  refine ⟨rfl, rfl, rfl, rfl, ⟨_, rfl, rfl⟩⟩

/-- C2 witness: the nested-merge example from the spec, at key "a". -/
theorem mergeConfig_lookup_witness :
    (([("a", JVal.obj [("c", JVal.num 9)])].map Prod.fst).Nodup) ∧
    lookupJ (mergeConfig [("a", JVal.obj [("b", JVal.num 1), ("c", JVal.num 2)])]
        [("a", JVal.obj [("c", JVal.num 9)])]) "a" =
      some (JVal.obj (mergeConfig [("b", JVal.num 1), ("c", JVal.num 2)] [("c", JVal.num 9)])) :=
  ⟨by decide,
    mergeConfig_lookup [("a", JVal.obj [("b", JVal.num 1), ("c", JVal.num 2)])]
      [("a", JVal.obj [("c", JVal.num 9)])] (by decide) "a"⟩

/-- C3 counterexample to the claim as stated: a bundle whose `command`
document is empty but whose other three required documents are non-empty is
accepted as valid by the code, so validity does not require the command
document. -/
theorem c3_isValid_counterexample :
    validBundle.IsValid = true ∧ validBundle.commandJson = "" := ⟨rfl, rfl⟩

/-- C3, corrected: a descriptor bundle is valid iff the config-schema,
deployment-template and package-metadata documents are non-empty; neither
the command document nor the options document is required. -/
theorem c3_isValid_iff (d : packageDefinition) :
    d.IsValid = true ↔ d.configJson ≠ "" ∧ d.marathonJson ≠ "" ∧ d.packageJson ≠ "" := by
  unfold packageDefinition.IsValid
  simp only [Bool.and_eq_true, decide_eq_true_iff, and_assoc, strLength_pos_iff]

/-- C3 witness: the corrected criterion at the concrete valid bundle. -/
theorem c3_isValid_iff_witness :
    validBundle.IsValid = true ↔
      validBundle.configJson ≠ "" ∧ validBundle.marathonJson ≠ "" ∧
        validBundle.packageJson ≠ "" :=
  c3_isValid_iff validBundle

/-- C4: resolving a definition for a name that matches no package does not
surface a recoverable not-found: `getPackageByName` returns the nil package
and `GetPackageDefinition` then calls a value-receiver method on it, a nil
pointer dereference panic. -/
theorem c4_nil_package_dereference :
    GetPackageDefinition (fun _ => none) [] [] [] (fun _ => none) (fun _ => none) "nosuch" "" =
      Except.error GoErr.nilPointerDeref := rfl

/-- C5, corrected: a request that matches a version key case-insensitively
after trimming — including the empty request when a version key is the empty
string — resolves to a matching version (supported or not); a request
matching no key resolves to a version with the lexicographically greatest
release index among all versions; a package with zero versions yields no
version and `GetPackageDefinition` fails with the no-installable-version
error. -/
theorem c5_resolveVersion_policy :
    (∀ (pkg : Package) (req : String),
      (∃ v ∈ pkg.packageVersions, equalFold v.version (trimSpace req) = true) →
      ∃ v, resolveVersion pkg req = some v ∧ v ∈ pkg.packageVersions ∧
        equalFold v.version (trimSpace req) = true) ∧
    (∀ (pkg : Package) (req : String),
      (∀ v ∈ pkg.packageVersions, equalFold v.version (trimSpace req) = false) →
      pkg.packageVersions ≠ [] →
      ∃ v, resolveVersion pkg req = some v ∧ v ∈ pkg.packageVersions ∧
        ∀ w ∈ pkg.packageVersions, w.index ≤ v.index) ∧
    (∀ (pkg : Package) (req : String), pkg.packageVersions = [] →
      resolveVersion pkg req = none) ∧
    (∀ (kv : Kv) (repos layers : List Repository) (entries : List packageIndexEntry)
        (ps : String → Option packageConfigGroup)
        (po : String → Option (List (String × JVal))) (name version : String) (pkg : Package),
      getPackageByName kv layers entries name = Except.ok (some pkg) →
      pkg.packageVersions = [] →
      GetPackageDefinition kv repos layers entries ps po name version =
        Except.error (GoErr.noInstallableVersion name)) := by
  have hnone : ∀ (pkg : Package) (req : String), pkg.packageVersions = [] →
      resolveVersion pkg req = none := by
    intro pkg req hv
    unfold resolveVersion Package.findPackageVersion Package.findLatestPackageVersion
    rw [hv]
    rfl
  refine ⟨?_, ?_, hnone, ?_⟩
  · intro pkg req hex
    obtain ⟨v, hv, hfold⟩ := hex
    have : (pkg.packageVersions.find? (fun v => equalFold v.version (trimSpace req))).isSome := by
      rw [List.find?_isSome]
      exact ⟨v, hv, hfold⟩
    obtain ⟨w, hw⟩ := Option.isSome_iff_exists.mp this
    refine ⟨w, ?_, List.mem_of_find?_eq_some hw, by simpa using List.find?_some hw⟩
    unfold resolveVersion Package.findPackageVersion
    rw [hw]
  · intro pkg req hall hne
    have hfind : pkg.packageVersions.find? (fun v => equalFold v.version (trimSpace req)) = none :=
      List.find?_eq_none.mpr (by
        intro x hx
        rw [hall x hx]
        simp)
    obtain ⟨v, hv, hvmem, hvmax⟩ := sortByMostRecent_head_max pkg.packageVersions hne
    refine ⟨v, ?_, hvmem, hvmax⟩
    unfold resolveVersion Package.findPackageVersion Package.findLatestPackageVersion
    rw [hfind, hv]
  · intro kv repos layers entries ps po name version pkg hget hv
    unfold GetPackageDefinition
    rw [hget, exceptBind_ok]
    have hres := hnone pkg version hv
    simp only [hres]

/-- C5 witness: a non-matching request resolves to the greatest release
index among all versions. -/
theorem c5_resolveVersion_policy_witness :
    (∀ v ∈ examplePkg.packageVersions, equalFold v.version (trimSpace "zzz") = false) ∧
    examplePkg.packageVersions ≠ [] ∧
    (∃ v, resolveVersion examplePkg "zzz" = some v ∧ v ∈ examplePkg.packageVersions ∧
      ∀ w ∈ examplePkg.packageVersions, w.index ≤ v.index) :=
  ⟨by decide, by decide,
    c5_resolveVersion_policy.2.1 examplePkg "zzz" (by decide) (by decide)⟩

/-- C5 counterexample to the claim as stated: with a package that has an
empty version key of release index "1" next to version "1.0" of release
index "9", the empty request resolves to the empty-keyed version, not to
the version with the greatest release index. -/
theorem c5_empty_request_counterexample :
    resolveVersion emptyKeyPkg "" = some { version := "", index := "1", supported := false } ∧
    ({ version := "1.0", index := "9", supported := false } : PackageVersion) ∈
      emptyKeyPkg.packageVersions ∧
    strLt "1" "9" = true := by
  refine ⟨rfl, by decide, rfl⟩

/-- C6: current-version resolution: an unsupported package is returned
untouched; a supported package whose declared current version maps to a
supported version is returned untouched; otherwise, when a supported
version exists, the current version becomes the version of a supported
entry with the greatest release index; on the spec's concrete example the
result is "1.2". -/
theorem c6_setCurrentVersion_policy :
    (∀ pkg : Package, pkg.supported = false → setCurrentVersion pkg = pkg) ∧
    (∀ (pkg : Package) (cv : PackageVersion),
      List.lookup pkg.currentVersion pkg.versions = some cv → cv.supported = true →
      setCurrentVersion pkg = pkg) ∧
    (∀ pkg : Package, pkg.supported = true → pkg.hasSupportedVersion = true →
      (∀ cv, List.lookup pkg.currentVersion pkg.versions = some cv → cv.supported = false) →
      ∃ v ∈ pkg.supportedVersions, (setCurrentVersion pkg).currentVersion = v.version ∧
        ∀ w ∈ pkg.supportedVersions, w.index ≤ v.index) ∧
    (setCurrentVersion examplePkg).currentVersion = "1.2" := by
  refine ⟨fun pkg h => setCurrentVersion_of_unsupported h,
    fun pkg cv h1 h2 => setCurrentVersion_keep h1 h2, ?_, by rfl⟩
  intro pkg h1 h2 h3
  obtain ⟨v, hvmem, heq, hmax⟩ := setCurrentVersion_replace h1 h2 h3
  exact ⟨v, hvmem, by rw [heq], hmax⟩

/-- C6 witness: the unsupported branch at a concrete package. -/
theorem c6_setCurrentVersion_policy_witness :
    unsupportedPkg.supported = false ∧ setCurrentVersion unsupportedPkg = unsupportedPkg :=
  ⟨rfl, c6_setCurrentVersion_policy.1 unsupportedPkg rfl⟩

/-- C8: default extraction per child: a present default is emitted verbatim;
otherwise an "object" child contributes its recursively extracted (possibly
empty) defaults object; any other child contributes no key. -/
theorem c8_defaultConfig_lookup (g : packageConfigGroup)
    (hnd : (g.properties.map Prod.fst).Nodup) (k : String) :
    lookupJ g.defaultConfig k =
      match List.lookup k g.properties with
      | none => none
      | some child =>
        match child.default with
        | some d => some d
        | none =>
          if child.type = "object" then some (JVal.obj child.defaultConfig) else none := by
  cases g with
  | mk ds ty ap props req mn df =>
    simp only [packageConfigGroup.defaultConfig, packageConfigGroup.properties] at hnd ⊢
    exact defaultsOfProperties_lookup props hnd k

/-- The schema used as the C8 witness: a scalar with a default, an object
without one, and a scalar without one. -/
def exSchema : packageConfigGroup :=
  .mk "root" "object" false
    [("a", .mk "" "string" false [] [] none (some (JVal.str "x"))),
     ("b", .mk "" "object" false [("c", .mk "" "int" false [] [] none none)] [] none none),
     ("d", .mk "" "int" false [] [] none none)]
    [] none none

/-- C8 witness: the child with a declared default contributes it verbatim. -/
theorem c8_defaultConfig_lookup_witness :
    ((exSchema.properties.map Prod.fst).Nodup) ∧
    lookupJ exSchema.defaultConfig "a" = some (JVal.str "x") :=
  ⟨by decide, c8_defaultConfig_lookup exSchema (by decide) "a"⟩

/-- C10: the container letter (uppercased first rune of the package name),
and with it every per-package/per-version storage key, is partial: an empty
package name panics with an index-out-of-range error, and a non-empty name
always yields a key. -/
theorem c10_containerId_empty_name_panics :
    (∀ p : Package, p.name = "" →
      p.containerId = Except.error GoErr.indexOutOfRange ∧
      ∀ idx, p.packageVersionKey idx = Except.error GoErr.indexOutOfRange) ∧
    (∀ p : Package, p.name ≠ "" →
      (∃ s, p.containerId = Except.ok s) ∧
      ∀ idx, ∃ k, p.packageVersionKey idx = Except.ok k) := by
  constructor
  · intro p hp
    have hd : p.name.data = [] := by rw [hp]
    constructor
    · unfold Package.containerId
      rw [hd]
    · intro idx
      unfold Package.packageVersionKey Package.packageKey Package.containerId
      rw [hd]
      rfl
  · intro p hp
    rcases hn : p.name.data with _ | ⟨c, rest⟩
    · exact absurd hn (data_ne_nil_of_ne_empty hp)
    · exact ⟨⟨_, containerId_ok hn⟩,
        fun idx => ⟨versionKeyOf p idx, packageVersionKey_ok hp idx⟩⟩

/-- C10 witness: the empty-name panic and a non-empty-name success, both at
concrete packages. -/
theorem c10_containerId_empty_name_panics_witness :
    (emptyNamePkg.containerId = Except.error GoErr.indexOutOfRange ∧
      ∀ idx, emptyNamePkg.packageVersionKey idx = Except.error GoErr.indexOutOfRange) ∧
    ((∃ s, fooPkg.containerId = Except.ok s) ∧
      ∀ idx, ∃ k, fooPkg.packageVersionKey idx = Except.ok k) :=
  ⟨c10_containerId_empty_name_panics.1 emptyNamePkg rfl, c10_containerId_empty_name_panics.2 fooPkg (by decide)⟩

/-- C7: descriptor assembly is last-writer-wins per document over the layer
sequence ordered by ascending index: for each of the five documents the
assembled bundle carries the content of the highest-index layer in which the
document is non-empty; a document present in no layer stays empty; contents
are never merged across layers. -/
theorem c7_assembly_last_writer_wins (kv : Kv) (repos : List Repository) (pkg : Package)
    (pv : PackageVersion) (init : packageDefinition)
    (hname : pkg.name ≠ "")
    (hinit : ∀ doc ∈ docNames, docOf init doc = "")
    (hsort : repos.Pairwise (fun a b => a.index < b.index)) :
    ∃ d, assembleDefinition kv repos pkg pv init = Except.ok d ∧
      ∀ doc ∈ docNames,
        ((∀ r ∈ repos, fetchDoc kv pkg pv r doc = "") → docOf d doc = "") ∧
        (∀ r ∈ repos, fetchDoc kv pkg pv r doc ≠ "" →
          (∀ r' ∈ repos, r.index < r'.index → fetchDoc kv pkg pv r' doc = "") →
          docOf d doc = fetchDoc kv pkg pv r doc) := by
  refine ⟨_, assembleDefinition_ok kv repos pkg pv init hname, ?_⟩
  intro doc hdoc
  have hfold := docOf_foldl kv
    (fun repo => pathJoin [repo.packagesKey, versionKeyOf pkg pv.index]) doc hdoc repos init
  constructor
  · intro hall
    rw [hfold, hinit doc hdoc]
    exact foldl_updateDoc_empty repos "" hall
  · intro r hr hfne hafter
    rw [hfold]
    obtain ⟨l1, l2, hsplit⟩ := List.append_of_mem hr
    subst hsplit
    have hpair := (List.pairwise_append.mp hsort).2.1
    rw [List.pairwise_cons] at hpair
    have h2 : ∀ x ∈ l2, getPackageDefinitionFile kv doc
        (pathJoin [x.packagesKey, versionKeyOf pkg pv.index]) = "" := by
      intro x hx
      exact hafter x (List.mem_append.mpr (Or.inr (List.mem_cons_of_mem r hx))) (hpair.1 x hx)
    exact foldl_updateDoc_last l1 r l2 (docOf init doc) hfne h2

/-- The empty-document bundle with which assembly starts for foo/1.0. -/
def asmInit : packageDefinition := { name := "foo", version := "1.0", release := "3" }

def fooVersion : PackageVersion := { version := "1.0", index := "3", supported := false }

/-- A store where the base-priority layer and the higher layer both define
the config-schema document for foo/3. -/
def asmKv : Kv := fun k =>
  if k = "mantl-install/repository/1/repo/packages/F/foo/3/config.json" then some "base-config"
  else if k = "mantl-install/repository/2/repo/packages/F/foo/3/config.json" then
    some "override-config"
  else none

/-- C7 witness: the theorem applied at the two-layer concrete store. -/
theorem c7_assembly_last_writer_wins_witness :
    fooPkg.name ≠ "" ∧
    (∀ doc ∈ docNames, docOf asmInit doc = "") ∧
    ([layerOne, layerTwo].Pairwise (fun a b => a.index < b.index)) ∧
    ∃ d, assembleDefinition asmKv [layerOne, layerTwo] fooPkg fooVersion asmInit =
        Except.ok d ∧
      ∀ doc ∈ docNames,
        ((∀ r ∈ [layerOne, layerTwo], fetchDoc asmKv fooPkg fooVersion r doc = "") →
          docOf d doc = "") ∧
        (∀ r ∈ [layerOne, layerTwo], fetchDoc asmKv fooPkg fooVersion r doc ≠ "" →
          (∀ r' ∈ [layerOne, layerTwo], r.index < r'.index →
            fetchDoc asmKv fooPkg fooVersion r' doc = "") →
          docOf d doc = fetchDoc asmKv fooPkg fooVersion r doc) :=
  ⟨by decide, by decide, by decide,
    c7_assembly_last_writer_wins asmKv [layerOne, layerTwo] fooPkg fooVersion asmInit
      (by decide) (by decide) (by decide)⟩

/-- C9: a catalog-built package (non-empty name, unique version keys)
satisfies the resolution invariant: the package's `supported` flag is true
iff some version is supported, and a supported package's current version
names a supported version. -/
theorem c9_catalog_supported_invariant (kv : Kv) (layers : List Repository)
    (entry : packageIndexEntry) (hname : entry.name ≠ "")
    (hnd : (entry.versions.map Prod.fst).Nodup) :
    ∃ p1, setSupportedVersions kv layers entry.ToPackage = Except.ok p1 ∧
      ((setCurrentVersion p1).supported = true ↔
        ∃ e ∈ (setCurrentVersion p1).versions, e.2.supported = true) ∧
      ((setCurrentVersion p1).supported = true →
        ∃ v, List.lookup (setCurrentVersion p1).currentVersion
            (setCurrentVersion p1).versions = some v ∧ v.supported = true) := by
  have hname' : (entry.ToPackage).name ≠ "" := hname
  refine ⟨probedPackageSpec kv layers entry.ToPackage,
    setSupportedVersions_eq kv layers entry.ToPackage hname', ?_, ?_⟩
  · set p1 := probedPackageSpec kv layers entry.ToPackage with hp1
    rw [setCurrentVersion_supported, setCurrentVersion_versions]
    rw [show p1.supported = p1.hasSupportedVersion from rfl]
    exact hasSupportedVersion_iff p1
  · set p1 := probedPackageSpec kv layers entry.ToPackage with hp1
    intro hsup
    rw [setCurrentVersion_supported] at hsup
    have hhs : p1.hasSupportedVersion = true := by
      rw [show p1.hasSupportedVersion = p1.supported from rfl]
      exact hsup
    have hcoh : ∀ e ∈ p1.versions, e.2.version = e.1 := by
      intro e he
      have hv1 : p1.versions = (entry.ToPackage).versions.map
          (fun x => (x.1, probedVersion kv layers entry.ToPackage x.2)) := rfl
      rw [hv1] at he
      obtain ⟨x, hx, hxe⟩ := List.mem_map.mp he
      have hTP : (entry.ToPackage).versions = entry.versions.map
          (fun p => (p.1,
            ({ version := p.1, index := p.2, supported := false } : PackageVersion))) := rfl
      rw [hTP] at hx
      obtain ⟨y, hy, hyx⟩ := List.mem_map.mp hx
      subst hxe
      rw [← hyx]
      rfl
    have hkeys : p1.versions.map Prod.fst = entry.versions.map Prod.fst := by
      show (((entry.ToPackage).versions.map
        (fun x => (x.1, probedVersion kv layers entry.ToPackage x.2))).map Prod.fst) = _
      rw [show (entry.ToPackage).versions = entry.versions.map
        (fun p => (p.1,
          ({ version := p.1, index := p.2, supported := false } : PackageVersion))) from rfl]
      simp [List.map_map, Function.comp]
    have hnd1 : (p1.versions.map Prod.fst).Nodup := by
      rw [hkeys]
      exact hnd
    by_cases hk : ∃ cv, List.lookup p1.currentVersion p1.versions = some cv ∧
      cv.supported = true
    · obtain ⟨cv, hl, hs⟩ := hk
      rw [setCurrentVersion_keep hl hs]
      exact ⟨cv, hl, hs⟩
    · have h3 : ∀ cv, List.lookup p1.currentVersion p1.versions = some cv →
          cv.supported = false := by
        intro cv hl
        by_contra hc
        refine hk ⟨cv, hl, ?_⟩
        revert hc
        cases cv.supported <;> simp
      obtain ⟨v, hvmem, heq, hmax⟩ := setCurrentVersion_replace hsup hhs h3
      rw [heq]
      show ∃ w, List.lookup v.version p1.versions = some w ∧ w.supported = true
      have hvs : v.supported = true := (List.mem_filter.mp hvmem).2
      have hvp : v ∈ p1.versions.map (fun e => e.2) := (List.mem_filter.mp hvmem).1
      obtain ⟨e, he, hev⟩ := List.mem_map.mp hvp
      have hkey : e.1 = v.version := by
        have h := hcoh e he
        rw [hev] at h
        exact h.symm
      have hmem2 : (v.version, v) ∈ p1.versions := by
        have hee : e = (v.version, v) := by
          obtain ⟨e1, e2⟩ := e
          simp only at hev hkey
          rw [hev, hkey]
        rw [← hee]
        exact he
      exact ⟨v, lookup_of_mem_nodup p1.versions hnd1 hmem2, hvs⟩

/-- The base-index entry used as the C9 witness. -/
def exEntry : packageIndexEntry :=
  { currentVersion := "0.9", description := "", framework := false, name := "kafka",
    tags := [], versions := [("0.9", "1"), ("1.0", "5")] }

/-- A store marking kafka/5 supported at override layer 1. -/
def exKv : Kv := fun k =>
  if k = "mantl-install/repository/1/repo/packages/K/kafka/5/mantl.json" then some "{}" else none

/-- C9 witness: the invariant at the concrete one-layer catalog. -/
theorem c9_catalog_supported_invariant_witness :
    exEntry.name ≠ "" ∧ ((exEntry.versions.map Prod.fst).Nodup) ∧
    ∃ p1, setSupportedVersions exKv [layerOne] exEntry.ToPackage = Except.ok p1 ∧
      ((setCurrentVersion p1).supported = true ↔
        ∃ e ∈ (setCurrentVersion p1).versions, e.2.supported = true) ∧
      ((setCurrentVersion p1).supported = true →
        ∃ v, List.lookup (setCurrentVersion p1).currentVersion
            (setCurrentVersion p1).versions = some v ∧ v.supported = true) :=
  ⟨by decide, by decide,
    c9_catalog_supported_invariant exKv [layerOne] exEntry (by decide) (by decide)⟩

end MantlApi
